import Mathlib

/-!
Verification of the depth-bounded, domain-scoped web crawler implemented in
src/WebScrapping/CAR/PagBasicaRecursiva2md.py (class MarkdownExtractor).

Modelling conventions:
* Python strings are modelled as List Char.
* urllib.parse.urlparse is modelled after CPythons urlsplit on absolute URL
  strings: an optional scheme (validated: first char an ASCII letter, the
  rest ASCII letters, digits or one of + - . ; lowercased on success), an
  optional //netloc part running up to the first of / ? #, then the fragment
  split at the first # and the query split at the first ? .
* hashlib.md5(...).hexdigest() and urllib.parse.urljoin are external
  collaborators; they are passed as opaque function parameters (md5hex,
  join) wherever the code uses them.
* Side effects (HTTP requests, directory creation, file writes, the
  visited-URL set) are modelled by explicit state threaded through the
  recursion; the HTTP transport is a function from the requested URL to an
  optional page (None modelling a failed fetch, timeout or non-2xx status).
-/

/-- Python str.rstrip("/"): remove every trailing '/'. -/
def rstripSlash (l : List Char) : List Char :=
  (l.reverse.dropWhile (fun c => c = '/')).reverse

/-- Python str.lstrip("/"): remove every leading '/'. -/
def lstripSlash (l : List Char) : List Char :=
  l.dropWhile (fun c => c = '/')

/-- Python str.strip("/"). -/
def stripSlash (l : List Char) : List Char :=
  rstripSlash (lstripSlash l)

/-- Python str.strip(): remove leading and trailing whitespace. -/
def pyStrip (l : List Char) : List Char :=
  ((l.dropWhile Char.isWhitespace).reverse.dropWhile Char.isWhitespace).reverse

/-- Split a list at the first character satisfying p: returns the part
before it and, when p occurs, the part strictly after it. -/
def splitFirst (p : Char → Bool) : List Char → List Char × Option (List Char)
  | [] => ([], none)
  | c :: cs =>
    if p c then ([], some cs)
    else
      let r := splitFirst p cs
      (c :: r.1, r.2)

/-- ASCII lowercasing of a single character (as Python str.lower acts on
the ASCII characters that a validated URL scheme may contain). -/
def lowerChar (c : Char) : Char :=
  if h : 65 ≤ c.toNat ∧ c.toNat ≤ 90 then
    Char.ofNatAux (c.toNat + 32) (Or.inl (by omega))
  else c

/-- The characters allowed after the first one in a URL scheme
(CPython scheme_chars): ASCII letters, digits, and + - . . -/
def scheme_char (c : Char) : Bool :=
  (65 ≤ c.toNat && c.toNat ≤ 90) || (97 ≤ c.toNat && c.toNat ≤ 122) ||
  (48 ≤ c.toNat && c.toNat ≤ 57) || c.toNat = 43 || c.toNat = 45 || c.toNat = 46

/-- An ASCII letter (Python c.isascii() and c.isalpha()). -/
def asciiAlpha (c : Char) : Bool :=
  (65 ≤ c.toNat && c.toNat ≤ 90) || (97 ≤ c.toNat && c.toNat ≤ 122)

/-- Scheme extraction of CPython urlsplit: split at the first ':' ; accept
the part before it as the scheme when it is nonempty, starts with an ASCII
letter and continues with scheme characters, lowercasing it; otherwise no
scheme and the URL is left whole. -/
def splitScheme (u : List Char) : List Char × List Char :=
  match splitFirst (fun c => c = ':') u with
  | (pre, some post) =>
    match pre with
    | [] => ([], u)
    | c0 :: cs =>
      if asciiAlpha c0 && cs.all scheme_char then ((c0 :: cs).map lowerChar, post)
      else ([], u)
  | (_, none) => ([], u)

/-- The characters terminating the netloc part (CPython _splitnetloc). -/
def netlocDelim (c : Char) : Bool := c = '/' || c = '?' || c = '#'

/-- Netloc extraction of CPython urlsplit: when the remainder starts with
"//", the netloc runs up to the first of / ? # . -/
def splitNetloc (u : List Char) : List Char × List Char :=
  match u with
  | '/' :: '/' :: rest =>
    (rest.takeWhile (fun c => !netlocDelim c), rest.dropWhile (fun c => !netlocDelim c))
  | _ => ([], u)

/-- The schemes for which CPython urlparse splits the params component off
the path (urllib.parse.uses_params). -/
def uses_params : List (List Char) :=
  [[], ("ftp").toList, ("hdl").toList, ("prospero").toList, ("http").toList,
   ("imap").toList, ("https").toList, ("imaps").toList, ("rtsp").toList,
   ("rtspu").toList, ("sip").toList, ("sips").toList, ("mms").toList,
   ("sftp").toList, ("tel").toList]

/-- CPython urllib.parse._splitparams: when the path contains a '/', split
at the first ';' at or after the last '/' (no split if the last segment has
no ';'); otherwise split at the first ';'.  The caller only invokes this
when the path contains a ';', so in the no-'/' branch the first ';' always
exists and the none fallback is unreachable. -/
def splitparams (url : List Char) : List Char × List Char :=
  if '/' ∈ url then
    let after := (url.reverse.takeWhile (fun c => !(c = '/'))).reverse
    let before := url.take (url.length - after.length)
    match splitFirst (fun c => c = ';') after with
    | (a, some b) => (before ++ a, b)
    | (_, none) => (url, [])
  else
    match splitFirst (fun c => c = ';') url with
    | (a, some b) => (a, b)
    | (_, none) => (url, [])

/-- The result of urllib.parse.urlparse as used by the crawler. -/
structure ParseResult where
  scheme : List Char
  netloc : List Char
  path : List Char
  params : List Char
  query : List Char
  fragment : List Char
deriving DecidableEq

/-- urllib.parse.urlparse: the urlsplit phases (scheme, then //netloc, then
the fragment split at the first '#', then the query split at the first
'?'), followed by the params split of the path for the schemes of
uses_params when the path contains a ';'. -/
def urlparse (u : List Char) : ParseResult :=
  let s1 := splitScheme u
  let s2 := splitNetloc s1.2
  let s3 := splitFirst (fun c => c = '#') s2.2
  let s4 := splitFirst (fun c => c = '?') s3.1
  let pp := if s1.1 ∈ uses_params ∧ ';' ∈ s4.1 then splitparams s4.1 else (s4.1, [])
  { scheme := s1.1, netloc := s2.1, path := pp.1, params := pp.2,
    query := s4.2.getD [], fragment := s3.2.getD [] }

/-- MarkdownExtractor._normalize_url (lines 140-143):
return f"{p.scheme}://{p.netloc}{p.path}".rstrip("/"). -/
def _normalize_url (url : List Char) : List Char :=
  let p := urlparse url
  rstripSlash (p.scheme ++ [':', '/', '/'] ++ p.netloc ++ p.path)

-- Concrete sanity checks of the parser model.
example : urlparse (("http://h/p/?x=1#f").toList) =
    { scheme := ("http").toList, netloc := ("h").toList, path := ("/p/").toList,
      params := [], query := ("x=1").toList, fragment := ("f").toList } := by decide

example : urlparse (("http://h/p;x").toList) =
    { scheme := ("http").toList, netloc := ("h").toList, path := ("/p").toList,
      params := ("x").toList, query := [], fragment := [] } := by decide

-- A ';' in a non-final segment does not trigger the params split.
example : (urlparse (("http://h/p;x/").toList)).path = ("/p;x/").toList := by decide

example : _normalize_url (("http://h/p/?x=1#f").toList) = ("http://h/p").toList := by decide
example : _normalize_url (("HTTP://h/p//").toList) = ("http://h/p").toList := by decide
example : _normalize_url (("file:///").toList) = ("file:").toList := by decide
example : _normalize_url (("mailto:a/b").toList) = ("mailto://a/b").toList := by decide
example : _normalize_url ((_normalize_url (("mailto:a/b").toList))) = ("mailto://a/b").toList := by decide
example : _normalize_url (("http://h/p;x/").toList) = ("http://h/p;x").toList := by decide
example : _normalize_url (("http://h/p;x").toList) = ("http://h/p").toList := by decide
example : _normalize_url (("http://h/;x").toList) = ("http://h").toList := by decide

/-- The characters replaced by '_' in filenames
(re.sub of the character class <>:"/\|?* at line 148). -/
def fsBadChar (c : Char) : Bool :=
  c = '<' || c = '>' || c = ':' || c = '\"' || c = '/' || c = '\\' ||
  c = '|' || c = '?' || c = '*'

/-- MarkdownExtractor._filename_from_url (lines 145-150): URL path stripped
of slashes (default "index"), unsafe characters replaced by '_', truncated
to the last 50 characters, with ".md" appended. -/
def _filename_from_url (url : List Char) : List Char :=
  let path0 := stripSlash (urlparse url).path
  let path := if path0 = [] then ("index").toList else path0
  let safe := path.map (fun c => if fsBadChar c then '_' else c)
  let short := if 50 < safe.length then safe.drop (safe.length - 50) else safe
  short ++ (".md").toList

/-- posixpath.join for two components, as used by os.path.join here. -/
def ospJoin (a b : List Char) : List Char :=
  if b.head? = some '/' then b
  else if a = [] || a.getLast? = some '/' then a ++ b
  else a ++ '/' :: b

/-- posixpath.dirname. -/
def ospDirname (p : List Char) : List Char :=
  let head := (p.reverse.dropWhile (fun c => !(c = '/'))).reverse
  if head = [] || head.all (fun c => c = '/') then head
  else rstripSlash head

/-- The file-path construction of fetch_and_save (lines 106-119), with
hashlib.md5(...).hexdigest() passed in as md5hex: the target folder is
base[/parent]/digest8, the filename is derived from the URL, and when the
full path exceeds 240 characters the filename is replaced by the first 10
hex characters of the MD5 of the full path plus ".md".  Returns
(folder, filepath). -/
def build_path (md5hex : List Char → List Char) (base_folder : List Char)
    (parent_folder : Option (List Char)) (final_url : List Char) :
    List Char × List Char :=
  let folder0 := match parent_folder with
    | none => base_folder
    | some p => ospJoin base_folder p
  let digest8 := (md5hex final_url).take 8
  let folder := ospJoin folder0 digest8
  let filename := _filename_from_url final_url
  let filepath := ospJoin folder filename
  if 240 < filepath.length then
    (folder, ospJoin folder ((md5hex filepath).take 10 ++ (".md").toList))
  else (folder, filepath)

example : build_path (fun _ => ("0123456789abcdef0123456789abcdef").toList)
    (("output").toList) none (("http://h").toList) =
    ((("output/01234567").toList), (("output/01234567/index.md").toList)) := by decide

/-- One iteration of the internal-link discovery loop of fetch_and_save
(lines 79-93), with urljoin passed in as join: strip the href, skip it when
empty or a pure fragment, resolve and normalize it, and append it unless it
leaves the domain of final_url or points back at final_url itself. -/
def linkStep (join : List Char → List Char → List Char) (final_url : List Char)
    (links : List (List Char)) (href0 : List Char) : List (List Char) :=
  let href := pyStrip href0
  if href = [] || href.head? = some '#' then links
  else
    let full_link := join final_url href
    let norm_link := _normalize_url full_link
    if (urlparse norm_link).netloc ≠ (urlparse final_url).netloc then links
    else if norm_link = final_url then links
    else links ++ [norm_link]

/-- The internal-link discovery loop of fetch_and_save (lines 76-93).
hrefs is the document-ordered list of href attributes of the anchor tags
found inside the content region; base_domain of line 76 is the netloc of
final_url, as read by linkStep. -/
def extract_links (join : List Char → List Char → List Char)
    (hrefs : List (List Char)) (final_url : List Char) : List (List Char) :=
  hrefs.foldl (linkStep join final_url) []

/-- The Link Extractor contract as worded in the spec (4.4): for every
hyperlink whose stripped href is nonempty and not a pure fragment, resolve
it against the final page URL, canonicalize it, and keep it unless its host
differs from the pages host or it equals the pages own canonical URL;
output in document order, without deduplication. -/
def extract_links_spec (join : List Char → List Char → List Char)
    (hrefs : List (List Char)) (final_url : List Char) : List (List Char) :=
  (hrefs.map pyStrip).filterMap (fun href =>
    if href = [] || href.head? = some '#' then none
    else
      let norm_link := _normalize_url (join final_url href)
      if (urlparse norm_link).netloc = (urlparse final_url).netloc ∧
          norm_link ≠ final_url then some norm_link
      else none)

example :
    extract_links (fun _ h => ("http://h").toList ++ h)
      [(" /a ").toList, ("").toList, ("#frag").toList, ("/a").toList]
      (("http://h/p").toList) =
    [("http://h/a").toList, ("http://h/a").toList] := by decide

/-- One fetched page as surfaced by the transport: the post-redirect
response URL (resp.url) and, when a main content region exists, the
document-ordered href attributes of its anchor tags (main = none models
"No main content found"). -/
structure Page where
  url : List Char
  main : Option (List (List Char))
deriving DecidableEq

/-- One HTTP request as issued by requests.get at lines 43-48, instrumented
with the depth and parent-folder token of the issuing task. -/
structure Request where
  url : List Char
  timeout : Nat
  redirects : Bool
  depth : Nat
  parent : Option (List Char)
deriving DecidableEq

/-- One persisted Markdown document: its file path and the canonical final
URL recorded in its front matter. -/
structure SavedDoc where
  path : List Char
  src : List Char
deriving DecidableEq

/-- The observable state of one crawl run: the visited-URL set
(self.visited_urls), the persisted documents, the log of issued HTTP
requests, and the log of os.makedirs calls. -/
structure CrawlState where
  visited : List (List Char)
  docs : List SavedDoc
  requests : List Request
  dirs : List (List Char)
deriving DecidableEq

/-- The crawl environment: the configuration of MarkdownExtractor
(base_folder, max_depth) together with the external collaborators: the
HTTP transport (world, returning none on any fetch failure), urljoin and
the MD5 hex digest. -/
structure Env where
  base_folder : List Char
  max_depth : Nat
  world : List Char → Option Page
  join : List Char → List Char → List Char
  md5hex : List Char → List Char

/-- MarkdownExtractor.fetch_and_save (lines 31-135), with the call-stack
recursion made structural on the fuel argument gas; fetch_and_save below
instantiates gas so that the guard depth < max_depth always runs out
before the fuel does.  Steps, in source order: normalize the requested URL
and issue the HTTP request to it (returning the state unchanged except for
the request log on failure); normalize the response URL; skip if already
visited; skip if no main content region; extract same-domain links; build
the target path; create the directories; write the document; mark the
final URL visited; and when depth < max_depth recurse over the extracted
links at depth+1 with the digest8 token as parent folder. -/
def crawl (env : Env) : Nat → List Char → Nat → Option (List Char) →
    CrawlState → CrawlState
  | gas, url, depth, parent_folder, st =>
    let normalized_url := _normalize_url url
    let st1 : CrawlState :=
      { st with requests := st.requests ++
          [{ url := normalized_url, timeout := 60, redirects := true,
             depth := depth, parent := parent_folder }] }
    match env.world normalized_url with
    | none => st1
    | some page =>
      let final_url := _normalize_url page.url
      if final_url ∈ st1.visited then st1
      else
        match page.main with
        | none => st1
        | some hrefs =>
          let links := extract_links env.join hrefs final_url
          let fp := build_path env.md5hex env.base_folder parent_folder final_url
          let st2 : CrawlState :=
            { st1 with dirs := st1.dirs ++ [fp.1, ospDirname fp.2] }
          let st3 : CrawlState :=
            { st2 with docs := st2.docs ++ [{ path := fp.2, src := final_url }] }
          let st4 : CrawlState := { st3 with visited := final_url :: st3.visited }
          if depth < env.max_depth then
            match gas with
            | 0 => st4
            | g + 1 =>
              links.foldl
                (fun s l => crawl env g l (depth + 1)
                  (some ((env.md5hex final_url).take 8)) s) st4
          else st4

/-- Entry point matching fetch_and_save(url, depth, parent_folder): the
fuel max_depth + 1 - depth dominates the recursion guard, so the fuel
never runs out on the branches the guard allows. -/
def fetch_and_save (env : Env) (url : List Char) (depth : Nat)
    (parent_folder : Option (List Char)) (st : CrawlState) : CrawlState :=
  crawl env (env.max_depth + 1 - depth) url depth parent_folder st

/-- The state at the start of a run: empty visited set, no documents, no
requests, no directories. -/
def initState : CrawlState := { visited := [], docs := [], requests := [], dirs := [] }

/-- Test fixture: a 32-hex-character digest stub standing in for MD5 in
concrete runs (the engine only inspects prefixes of the digest). -/
def constHash32 : List Char → List Char :=
  fun _ => ("00000000000000000000000000000000").toList

/-- Test fixture: a three-level site; the root links to /a, /a links to /b,
/b has no links; every other URL fails to fetch. -/
def testWorld : List Char → Option Page := fun u =>
  if u = ("http://h").toList then
    some { url := ("http://h").toList, main := some [("/a").toList] }
  else if u = ("http://h/a").toList then
    some { url := ("http://h/a").toList, main := some [("/b").toList] }
  else if u = ("http://h/b").toList then
    some { url := ("http://h/b").toList, main := some [] }
  else none

/-- Test fixture: a resolver joining host-relative hrefs against http://h. -/
def testJoin : List Char → List Char → List Char :=
  fun _ href => ("http://h").toList ++ href

/-- Test fixture: the three-level site crawled with max_depth = 1. -/
def testEnv : Env :=
  { base_folder := ("out").toList, max_depth := 1, world := testWorld,
    join := testJoin, md5hex := constHash32 }

example :
    (fetch_and_save testEnv (("http://h").toList) 0 none initState).requests.map
      (fun r => (r.url, r.depth, r.parent)) =
    [((("http://h").toList), 0, none),
     ((("http://h/a").toList), 1, some (("00000000").toList))] := by decide

example :
    (fetch_and_save testEnv (("http://h").toList) 0 none initState).docs =
    [{ path := ("out/00000000/index.md").toList, src := ("http://h").toList },
     { path := ("out/00000000/00000000/a.md").toList, src := ("http://h/a").toList }] := by
  decide

/-! ### Helper lemmas about rstripSlash and splitFirst -/

theorem head?_dropWhile_not (p : Char → Bool) :
    ∀ (l : List Char) (x : Char), (l.dropWhile p).head? = some x → p x = false
  | [], _, h => by simp at h
  | c :: cs, x, h => by
    rw [List.dropWhile_cons] at h
    by_cases hc : p c
    · rw [if_pos hc] at h
      exact head?_dropWhile_not p cs x h
    · rw [if_neg hc] at h
      simp only [List.head?_cons, Option.some.injEq] at h
      subst h
      simpa using hc

theorem rstripSlash_getLast? (l : List Char) : (rstripSlash l).getLast? ≠ some '/' := by
  unfold rstripSlash
  rw [List.getLast?_reverse]
  intro h
  have := head?_dropWhile_not (fun c => c = '/') l.reverse '/' h
  simp at this

theorem rstripSlash_append (a b : List Char) (h : a.getLast? ≠ some '/') :
    rstripSlash (a ++ b) = a ++ rstripSlash b := by
  unfold rstripSlash
  rw [List.reverse_append, List.dropWhile_append]
  by_cases hb : (b.reverse.dropWhile (fun c => c = '/')).isEmpty
  · rw [if_pos hb]
    rw [List.isEmpty_iff] at hb
    rw [hb]
    have ha : a.reverse.dropWhile (fun c => c = '/') = a.reverse := by
      cases ha2 : a.reverse with
      | nil => simp
      | cons x xs =>
        rw [List.dropWhile_cons, if_neg]
        intro hx
        apply h
        rw [← List.head?_reverse, ha2]
        simp only [decide_eq_true_eq] at hx
        simp [hx]
    rw [ha]
    simp
  · rw [if_neg hb]
    rw [List.reverse_append]
    simp

theorem rstripSlash_append_of_ne_nil (a b : List Char) (h : rstripSlash b ≠ []) :
    rstripSlash (a ++ b) = a ++ rstripSlash b := by
  unfold rstripSlash at h ⊢
  rw [List.reverse_append, List.dropWhile_append, if_neg, List.reverse_append]
  · simp
  · intro he
    rw [List.isEmpty_iff] at he
    rw [he] at h
    simp at h

theorem rstripSlash_eq_nil_iff (l : List Char) :
    rstripSlash l = [] ↔ ∀ c ∈ l, c = '/' := by
  unfold rstripSlash
  rw [List.reverse_eq_nil_iff, List.dropWhile_eq_nil_iff]
  constructor
  · intro h c hc
    have := h c (List.mem_reverse.mpr hc)
    simpa using this
  · intro h c hc
    simp only [decide_eq_true_eq]
    exact h c (List.mem_reverse.mp hc)

theorem rstripSlash_eq_self (l : List Char) (h : l.getLast? ≠ some '/') :
    rstripSlash l = l := by
  have := rstripSlash_append l [] h
  simpa [rstripSlash] using this

theorem mem_rstripSlash (l : List Char) (x : Char) (h : x ∈ rstripSlash l) : x ∈ l := by
  unfold rstripSlash at h
  rw [List.mem_reverse] at h
  exact List.mem_reverse.mp ((List.dropWhile_sublist _).subset h)

theorem rstripSlash_no_slash_append (a b : List Char)
    (ha : ∀ c ∈ a, c ≠ '/') :
    rstripSlash (a ++ b) = a ++ rstripSlash b := by
  apply rstripSlash_append
  intro hl
  exact ha _ (List.mem_of_getLast?_eq_some hl) rfl

theorem splitFirst_not_mem (p : Char → Bool) :
    ∀ (l : List Char), (∀ x ∈ l, p x = false) → splitFirst p l = (l, none)
  | [], _ => rfl
  | c :: cs, h => by
    unfold splitFirst
    rw [if_neg (by simp [h c (List.mem_cons_self c cs)])]
    rw [splitFirst_not_mem p cs (fun x hx => h x (List.mem_cons_of_mem c hx))]

theorem splitFirst_found (p : Char → Bool) :
    ∀ (a : List Char) (c : Char) (b : List Char),
      (∀ x ∈ a, p x = false) → p c = true →
      splitFirst p (a ++ c :: b) = (a, some b)
  | [], c, b, _, hc => by simp [splitFirst, hc]
  | x :: xs, c, b, ha, hc => by
    rw [List.cons_append]
    unfold splitFirst
    rw [if_neg (by simp [ha x (List.mem_cons_self x xs)])]
    rw [splitFirst_found p xs c b (fun y hy => ha y (List.mem_cons_of_mem x hy)) hc]

theorem mem_splitFirst_fst (p : Char → Bool) :
    ∀ (l : List Char) (x : Char), x ∈ (splitFirst p l).1 → x ∈ l ∧ p x = false
  | [], x, h => by simp [splitFirst] at h
  | c :: cs, x, h => by
    unfold splitFirst at h
    by_cases hc : p c
    · rw [if_pos hc] at h
      simp at h
    · rw [if_neg hc] at h
      simp only [List.mem_cons] at h ⊢
      rcases h with h | h
      · subst h
        exact ⟨Or.inl rfl, by simpa using hc⟩
      · have := mem_splitFirst_fst p cs x h
        exact ⟨Or.inr this.1, this.2⟩

/-! ### Helper lemmas about lowerChar and scheme characters -/

theorem toNat_lowerChar (c : Char) (h : 65 ≤ c.toNat ∧ c.toNat ≤ 90) :
    (lowerChar c).toNat = c.toNat + 32 := by
  simp only [lowerChar, dif_pos h]
  simp [Char.ofNatAux, Char.toNat, UInt32.toNat, BitVec.toNat_ofNatLt]

theorem lowerChar_eq_self (c : Char) (h : ¬(65 ≤ c.toNat ∧ c.toNat ≤ 90)) :
    lowerChar c = c := dif_neg h

theorem lowerChar_not_upper (c : Char) :
    ¬(65 ≤ (lowerChar c).toNat ∧ (lowerChar c).toNat ≤ 90) := by
  by_cases h : 65 ≤ c.toNat ∧ c.toNat ≤ 90
  · rw [toNat_lowerChar c h]
    omega
  · rw [lowerChar_eq_self c h]
    exact h

theorem scheme_char_lowerChar (c : Char) (h : scheme_char c = true) :
    scheme_char (lowerChar c) = true := by
  by_cases hu : 65 ≤ c.toNat ∧ c.toNat ≤ 90
  · have ht := toNat_lowerChar c hu
    simp only [scheme_char, Bool.or_eq_true, Bool.and_eq_true, decide_eq_true_eq] at h ⊢
    omega
  · rw [lowerChar_eq_self c hu]
    exact h

theorem asciiAlpha_lowerChar (c : Char) (h : asciiAlpha c = true) :
    asciiAlpha (lowerChar c) = true := by
  by_cases hu : 65 ≤ c.toNat ∧ c.toNat ≤ 90
  · have ht := toNat_lowerChar c hu
    simp only [asciiAlpha, Bool.or_eq_true, Bool.and_eq_true, decide_eq_true_eq] at h ⊢
    omega
  · rw [lowerChar_eq_self c hu]
    exact h

theorem asciiAlpha_scheme_char (c : Char) (h : asciiAlpha c = true) :
    scheme_char c = true := by
  simp only [asciiAlpha, scheme_char, Bool.or_eq_true, Bool.and_eq_true,
    decide_eq_true_eq] at h ⊢
  omega

theorem scheme_char_ne (c : Char) (h : scheme_char c = true) :
    c ≠ ':' ∧ c ≠ '/' ∧ c ≠ '?' ∧ c ≠ '#' := by
  refine ⟨?_, ?_, ?_, ?_⟩ <;> (rintro rfl; exact absurd h (by decide))

/-! ### Structural facts about urlparse -/

/-- A scheme as produced by a successful splitScheme: nonempty, starting
with an ASCII letter, made of scheme characters, already lowercased. -/
def GoodScheme (s : List Char) : Prop :=
  (∃ c0 cs, s = c0 :: cs ∧ asciiAlpha c0 = true) ∧
  ∀ c ∈ s, scheme_char c = true ∧ ¬(65 ≤ c.toNat ∧ c.toNat ≤ 90)

theorem splitScheme_good (u : List Char) :
    (splitScheme u).1 = [] ∨ GoodScheme (splitScheme u).1 := by
  unfold splitScheme
  cases hsf : splitFirst (fun c => c = ':') u with
  | mk pre rest =>
    cases rest with
    | none => left; rfl
    | some post =>
      cases pre with
      | nil => left; rfl
      | cons c0 cs =>
        by_cases hv : asciiAlpha c0 && cs.all scheme_char
        · right
          simp only [if_pos hv]
          rw [Bool.and_eq_true] at hv
          have hall : ∀ x ∈ c0 :: cs, scheme_char x = true := by
            intro x hx
            rcases List.mem_cons.mp hx with h | h
            · subst h; exact asciiAlpha_scheme_char x hv.1
            · exact List.all_eq_true.mp hv.2 x h
          constructor
          · exact ⟨lowerChar c0, cs.map lowerChar, by simp, asciiAlpha_lowerChar c0 hv.1⟩
          · intro c hc
            rw [List.mem_map] at hc
            obtain ⟨x, hx, rfl⟩ := hc
            exact ⟨scheme_char_lowerChar x (hall x hx), lowerChar_not_upper x⟩
        · left
          simp only [if_neg hv]

theorem urlparse_scheme_eq (u : List Char) : (urlparse u).scheme = (splitScheme u).1 := rfl

theorem urlparse_scheme_good (u : List Char) :
    (urlparse u).scheme = [] ∨ GoodScheme (urlparse u).scheme := by
  rw [urlparse_scheme_eq]
  exact splitScheme_good u

theorem GoodScheme.map_lower {s : List Char} (h : GoodScheme s) :
    s.map lowerChar = s := by
  have : s.map lowerChar = s.map id :=
    List.map_congr_left (fun a ha => lowerChar_eq_self a (h.2 a ha).2)
  rw [this, List.map_id]

theorem splitScheme_found (S r : List Char) (hS : GoodScheme S) :
    splitScheme (S ++ ':' :: r) = (S, r) := by
  have h1 : splitFirst (fun c => c = ':') (S ++ ':' :: r) = (S, some r) := by
    apply splitFirst_found
    · intro x hx
      exact decide_eq_false (scheme_char_ne x (hS.2 x hx).1).1
    · simp
  obtain ⟨c0, cs, hcons, halpha⟩ := hS.1
  subst hcons
  have hv : (asciiAlpha c0 && cs.all scheme_char) = true := by
    rw [Bool.and_eq_true]
    refine ⟨halpha, List.all_eq_true.mpr ?_⟩
    intro x hx
    exact (hS.2 x (List.mem_cons_of_mem c0 hx)).1
  unfold splitScheme
  rw [h1]
  simp only [hv, if_true]
  rw [GoodScheme.map_lower hS]

theorem mem_netloc_not_delim (u : List Char) :
    ∀ c ∈ (urlparse u).netloc, netlocDelim c = false := by
  intro c hc
  have hc2 : c ∈ (splitNetloc (splitScheme u).2).1 := hc
  unfold splitNetloc at hc2
  split at hc2
  · have := List.mem_takeWhile_imp hc2
    simpa using this
  · simp at hc2

theorem mem_netloc_ne (u : List Char) :
    ∀ c ∈ (urlparse u).netloc, c ≠ '/' ∧ c ≠ '?' ∧ c ≠ '#' := by
  intro c hc
  have := mem_netloc_not_delim u c hc
  unfold netlocDelim at this
  simp only [Bool.or_eq_false_iff, decide_eq_false_iff_not] at this
  exact ⟨this.1.1, this.1.2, this.2⟩

theorem mem_splitparams_fst (l : List Char) (x : Char) (h : x ∈ (splitparams l).1) :
    x ∈ l := by
  unfold splitparams at h
  by_cases hs : '/' ∈ l
  · rw [if_pos hs] at h
    simp only [] at h
    cases hsf : splitFirst (fun c => c = ';')
        ((l.reverse.takeWhile (fun c => !(c = '/'))).reverse) with
    | mk a ob =>
      rw [hsf] at h
      cases ob with
      | some b =>
        simp only [] at h
        rcases List.mem_append.mp h with h | h
        · exact List.take_subset _ _ h
        · have h2 : x ∈ (l.reverse.takeWhile (fun c => !(c = '/'))).reverse := by
            have := mem_splitFirst_fst (fun c => c = ';') _ x (by rw [hsf]; exact h)
            exact this.1
          rw [List.mem_reverse] at h2
          exact List.mem_reverse.mp ((List.takeWhile_sublist _).subset h2)
      | none => exact h
  · rw [if_neg hs] at h
    cases hsf : splitFirst (fun c => c = ';') l with
    | mk a ob =>
      rw [hsf] at h
      cases ob with
      | some b => exact (mem_splitFirst_fst (fun c => c = ';') l x (by rw [hsf]; exact h)).1
      | none => exact h

/-- Every character of the parsed path occurs in the pre-params path
component (the params split only removes a suffix of the last segment). -/
theorem urlparse_path_mem (u : List Char) (x : Char) (h : x ∈ (urlparse u).path) :
    x ∈ (splitFirst (fun c => c = '?')
      (splitFirst (fun c => c = '#') (splitNetloc (splitScheme u).2).2).1).1 := by
  unfold urlparse at h
  simp only [] at h
  split at h
  · exact mem_splitparams_fst _ x h
  · exact h

theorem mem_path_ne (u : List Char) :
    ∀ c ∈ (urlparse u).path, c ≠ '?' ∧ c ≠ '#' := by
  intro c hc
  have hc2 := urlparse_path_mem u c hc
  have h1 := mem_splitFirst_fst _ _ _ hc2
  have h2 := mem_splitFirst_fst _ _ _ h1.1
  refine ⟨?_, ?_⟩
  · simpa using h1.2
  · simpa using h2.2

/-- Reassembling a parsed URL of the shape scheme : / / w, where w holds
neither '#' nor '?' and its path part holds no ';' (so the params split of
urlparse does not fire). -/
theorem urlparse_rebuilt (S w : List Char) (hS : GoodScheme S)
    (hw : ∀ c ∈ w, c ≠ '#' ∧ c ≠ '?')
    (hw2 : ';' ∉ w.dropWhile (fun c => !netlocDelim c)) :
    urlparse (S ++ ':' :: '/' :: '/' :: w) =
      { scheme := S,
        netloc := w.takeWhile (fun c => !netlocDelim c),
        path := w.dropWhile (fun c => !netlocDelim c),
        params := [], query := [], fragment := [] } := by
  have h1 := splitScheme_found S ('/' :: '/' :: w) hS
  have hsub : ∀ c ∈ w.dropWhile (fun c => !netlocDelim c), c ≠ '#' ∧ c ≠ '?' :=
    fun c hc => hw c ((List.dropWhile_sublist _).subset hc)
  have h3 : splitFirst (fun c => c = '#') (w.dropWhile (fun c => !netlocDelim c)) =
      (w.dropWhile (fun c => !netlocDelim c), none) := by
    apply splitFirst_not_mem
    intro x hx
    exact decide_eq_false (hsub x hx).1
  have h4 : splitFirst (fun c => c = '?') (w.dropWhile (fun c => !netlocDelim c)) =
      (w.dropWhile (fun c => !netlocDelim c), none) := by
    apply splitFirst_not_mem
    intro x hx
    exact decide_eq_false (hsub x hx).2
  have hcond : ¬(S ∈ uses_params ∧ ';' ∈ w.dropWhile (fun c => !netlocDelim c)) :=
    fun hc => hw2 hc.2
  unfold urlparse
  rw [h1]
  simp only []
  rw [show splitNetloc ('/' :: '/' :: w) =
      (w.takeWhile (fun c => !netlocDelim c), w.dropWhile (fun c => !netlocDelim c)) from rfl]
  rw [h3, h4]
  simp [hcond]

/-- Reassembling a parsed URL of the shape scheme : . -/
theorem urlparse_rebuilt_nil (S : List Char) (hS : GoodScheme S) :
    urlparse (S ++ [':']) =
      { scheme := S, netloc := [], path := [], params := [],
        query := [], fragment := [] } := by
  have h1 : splitScheme (S ++ [':']) = (S, []) := splitScheme_found S [] hS
  have hcond : ¬(S ∈ uses_params ∧ ';' ∈ ([] : List Char)) := by
    rintro ⟨_, hc⟩
    simp at hc
  unfold urlparse
  rw [h1]
  simp [hcond, splitNetloc, splitFirst]

/-! ### The canonical shape of _normalize_url output -/

theorem normalize_unfold (u : List Char) :
    _normalize_url u = rstripSlash ((urlparse u).scheme ++ [':', '/', '/'] ++
      (urlparse u).netloc ++ (urlparse u).path) := rfl

theorem normalize_decomp (u : List Char) :
    _normalize_url u =
      (urlparse u).scheme ++ ':' ::
        rstripSlash ('/' :: '/' :: ((urlparse u).netloc ++ (urlparse u).path)) := by
  rw [normalize_unfold]
  have hassoc :
      (urlparse u).scheme ++ [':', '/', '/'] ++ (urlparse u).netloc ++ (urlparse u).path
        = ((urlparse u).scheme ++ [':']) ++
            ('/' :: '/' :: ((urlparse u).netloc ++ (urlparse u).path)) := by
    simp
  rw [hassoc, rstripSlash_append _ _ (by rw [List.getLast?_concat]; simp)]
  simp

theorem normalize_no_trailing (u : List Char) :
    (_normalize_url u).getLast? ≠ some '/' := by
  unfold _normalize_url
  exact rstripSlash_getLast? _

theorem normalize_no_qf (u : List Char) :
    ∀ c ∈ _normalize_url u, c ≠ '?' ∧ c ≠ '#' := by
  intro c hc
  unfold _normalize_url at hc
  have hc2 := mem_rstripSlash _ _ hc
  rcases List.mem_append.mp hc2 with h1 | h1
  · rcases List.mem_append.mp h1 with h2 | h2
    · rcases List.mem_append.mp h2 with h3 | h3
      · rcases urlparse_scheme_good u with he | hg
        · rw [he] at h3
          simp at h3
        · have := scheme_char_ne c (hg.2 c h3).1
          exact ⟨this.2.2.1, this.2.2.2⟩
      · fin_cases h3 <;> exact ⟨by decide, by decide⟩
    · exact ⟨(mem_netloc_ne u c h2).2.1, (mem_netloc_ne u c h2).2.2⟩
  · exact ⟨(mem_path_ne u c h1).1, (mem_path_ne u c h1).2⟩

theorem normalize_netloc_ne (u : List Char) (h : (urlparse u).netloc ≠ []) :
    _normalize_url u = (urlparse u).scheme ++ ':' :: '/' :: '/' ::
      ((urlparse u).netloc ++ rstripSlash (urlparse u).path) := by
  rw [normalize_decomp]
  have hN : ∀ c ∈ (urlparse u).netloc, c ≠ '/' := fun c hc => (mem_netloc_ne u c hc).1
  have h1 : rstripSlash ((urlparse u).netloc ++ (urlparse u).path)
      = (urlparse u).netloc ++ rstripSlash (urlparse u).path :=
    rstripSlash_no_slash_append _ _ hN
  have hne : rstripSlash ((urlparse u).netloc ++ (urlparse u).path) ≠ [] := by
    rw [h1]
    intro hc
    exact h (List.append_eq_nil.mp hc).1
  have h3 := rstripSlash_append_of_ne_nil ['/', '/'] _ hne
  simp only [List.cons_append, List.nil_append] at h3
  rw [h3, h1]

/-- Idempotence of the URL normalizer on absolute URLs (nonempty scheme)
whose parsed path holds no ';' (so reparsing the canonical output cannot
trigger the params split; without this proviso idempotence fails, e.g. on
http://h/p;x/ ). -/
theorem normurl_idem (u : List Char) (h : (urlparse u).scheme ≠ [])
    (hsemi : ∀ c ∈ (urlparse u).path, c ≠ ';') :
    _normalize_url (_normalize_url u) = _normalize_url u := by
  have hgood : GoodScheme (urlparse u).scheme := (urlparse_scheme_good u).resolve_left h
  have hd := normalize_decomp u
  by_cases hw : rstripSlash ((urlparse u).netloc ++ (urlparse u).path) = []
  · have hall := (rstripSlash_eq_nil_iff _).mp hw
    have ht : rstripSlash ('/' :: '/' :: ((urlparse u).netloc ++ (urlparse u).path)) = [] := by
      rw [rstripSlash_eq_nil_iff]
      intro c hc
      rcases List.mem_cons.mp hc with rfl | hc
      · rfl
      rcases List.mem_cons.mp hc with rfl | hc
      · rfl
      · exact hall c hc
    rw [hd, ht]
    have hparse := urlparse_rebuilt_nil (urlparse u).scheme hgood
    show _normalize_url ((urlparse u).scheme ++ [':']) = (urlparse u).scheme ++ [':']
    rw [normalize_unfold, hparse]
    show rstripSlash ((urlparse u).scheme ++ [':', '/', '/'] ++ [] ++ []) =
      (urlparse u).scheme ++ [':']
    simp only [List.append_nil]
    have hsplit2 : (urlparse u).scheme ++ ([':', '/', '/'] : List Char)
        = ((urlparse u).scheme ++ [':']) ++ ['/', '/'] := by simp
    rw [hsplit2, rstripSlash_append _ _ (by rw [List.getLast?_concat]; simp)]
    rw [show rstripSlash ['/', '/'] = [] from by decide]
    simp
  · have ht : rstripSlash ('/' :: '/' :: ((urlparse u).netloc ++ (urlparse u).path))
        = '/' :: '/' :: rstripSlash ((urlparse u).netloc ++ (urlparse u).path) := by
      have h3 := rstripSlash_append_of_ne_nil ['/', '/'] _ hw
      simpa using h3
    rw [hd, ht]
    set w := rstripSlash ((urlparse u).netloc ++ (urlparse u).path) with hwdef
    have hwq : ∀ c ∈ w, c ≠ '#' ∧ c ≠ '?' := by
      intro c hc
      have hc2 := mem_rstripSlash _ _ hc
      rcases List.mem_append.mp hc2 with hc3 | hc3
      · have := mem_netloc_ne u c hc3
        exact ⟨this.2.2, this.2.1⟩
      · have := mem_path_ne u c hc3
        exact ⟨this.2, this.1⟩
    have hw2 : ';' ∉ w.dropWhile (fun c => !netlocDelim c) := by
      intro hmem
      have hN : ∀ c ∈ (urlparse u).netloc, c ≠ '/' := fun c hc => (mem_netloc_ne u c hc).1
      have hw_eq : w = (urlparse u).netloc ++ rstripSlash (urlparse u).path := by
        rw [hwdef]
        exact rstripSlash_no_slash_append _ _ hN
      rw [hw_eq, List.dropWhile_append, if_pos ?hpass] at hmem
      case hpass =>
        rw [List.isEmpty_iff, List.dropWhile_eq_nil_iff]
        intro x hx
        simp [mem_netloc_not_delim u x hx]
      have hpath : ';' ∈ (urlparse u).path :=
        mem_rstripSlash _ _ ((List.dropWhile_sublist _).subset hmem)
      exact hsemi ';' hpath rfl
    have hparse := urlparse_rebuilt (urlparse u).scheme w hgood hwq hw2
    show _normalize_url ((urlparse u).scheme ++ ':' :: '/' :: '/' :: w)
      = (urlparse u).scheme ++ ':' :: '/' :: '/' :: w
    rw [normalize_unfold, hparse]
    show rstripSlash ((urlparse u).scheme ++ [':', '/', '/'] ++
        w.takeWhile (fun c => !netlocDelim c) ++ w.dropWhile (fun c => !netlocDelim c))
      = (urlparse u).scheme ++ ':' :: '/' :: '/' :: w
    have hwlast : w.getLast? ≠ some '/' := by
      rw [hwdef]
      exact rstripSlash_getLast? _
    have hwfix : rstripSlash w = w := rstripSlash_eq_self w hwlast
    have hassoc : (urlparse u).scheme ++ ([':', '/', '/'] : List Char) ++
        w.takeWhile (fun c => !netlocDelim c) ++ w.dropWhile (fun c => !netlocDelim c)
        = ((urlparse u).scheme ++ [':']) ++ ('/' :: '/' :: w) := by
      conv_rhs => rw [← List.takeWhile_append_dropWhile (p := fun c => !netlocDelim c) (l := w)]
      simp
    rw [hassoc, rstripSlash_append _ _ (by rw [List.getLast?_concat]; simp)]
    have hslashes : rstripSlash ('/' :: '/' :: w) = '/' :: '/' :: w := by
      have h3 := rstripSlash_append_of_ne_nil ['/', '/'] w (by rw [hwfix]; exact hw)
      rw [hwfix] at h3
      simpa using h3
    rw [hslashes]
    simp

/-! ### Link extractor refinement -/

theorem extract_links_foldl_aux (join : List Char → List Char → List Char)
    (final_url : List Char) :
    ∀ (hs : List (List Char)) (acc : List (List Char)),
      hs.foldl (linkStep join final_url) acc
        = acc ++ extract_links_spec join hs final_url := by
  intro hs
  induction hs with
  | nil =>
    intro acc
    simp [extract_links_spec]
  | cons h t ih =>
    intro acc
    rw [List.foldl_cons, ih]
    unfold linkStep extract_links_spec
    by_cases h1 : pyStrip h = [] ∨ (pyStrip h).head? = some '#'
    · have h1b : (decide (pyStrip h = []) || decide ((pyStrip h).head? = some '#')) = true := by
        rcases h1 with h | h <;> simp [h]
      simp [h1, h1b, List.filterMap_cons, List.filterMap_map]
    · have h1b : (decide (pyStrip h = []) || decide ((pyStrip h).head? = some '#')) = false := by
        rw [Bool.or_eq_false_iff]
        constructor <;> (apply decide_eq_false; intro hcon; exact h1 (by simp [hcon]))
      by_cases h2 : (urlparse (_normalize_url (join final_url (pyStrip h)))).netloc
          = (urlparse final_url).netloc
      · by_cases h3 : _normalize_url (join final_url (pyStrip h)) = final_url
        · simp [h1, h1b, h2, h3, List.filterMap_cons, List.filterMap_map]
        · simp [h1, h1b, h2, h3, List.filterMap_cons, List.filterMap_map]
      · simp [h1, h1b, h2, List.filterMap_cons, List.filterMap_map]

theorem extract_links_eq_spec (join : List Char → List Char → List Char)
    (hrefs : List (List Char)) (final_url : List Char) :
    extract_links join hrefs final_url = extract_links_spec join hrefs final_url := by
  have := extract_links_foldl_aux join final_url hrefs []
  simpa [extract_links] using this

/-! ### Crawl engine invariants -/

theorem foldl_preserve {α : Type} (P : CrawlState → Prop) (f : CrawlState → α → CrawlState)
    (hf : ∀ s a, P s → P (f s a)) :
    ∀ (ls : List α) (s : CrawlState), P s → P (ls.foldl f s) := by
  intro ls
  induction ls with
  | nil =>
    intro s hs
    exact hs
  | cons a as ih =>
    intro s hs
    exact ih _ (hf s a hs)

/-- Every state reachable by the crawler is obtained from the initial one
by the two primitive transitions of fetch_and_save: logging one HTTP
request, and persisting one document for a final URL not yet visited
(which appends the target directories and the document and then marks the
URL visited).  Any predicate closed under both transitions is an invariant
of the whole crawl. -/
theorem crawl_preserve (env : Env) (P : CrawlState → Prop)
    (hreq : ∀ (s : CrawlState) (r : Request),
      P s → P { s with requests := s.requests ++ [r] })
    (hwrite : ∀ (s : CrawlState) (folder fpath fin : List Char),
      P s → fin ∉ s.visited →
      P { s with visited := fin :: s.visited,
                 docs := s.docs ++ [{ path := fpath, src := fin }],
                 dirs := s.dirs ++ [folder, ospDirname fpath] }) :
    ∀ gas url depth parent st, P st → P (crawl env gas url depth parent st) := by
  intro gas
  induction gas with
  | zero =>
    intro url depth parent st hst
    rw [crawl]
    simp only []
    cases hw : env.world (_normalize_url url) with
    | none => exact hreq st _ hst
    | some page =>
      simp only []
      split
      · exact hreq st _ hst
      · rename_i hvis
        cases page.main with
        | none => exact hreq st _ hst
        | some hrefs =>
          simp only []
          split
          · exact hwrite _ _ _ _ (hreq st _ hst) hvis
          · exact hwrite _ _ _ _ (hreq st _ hst) hvis
  | succ g ih =>
    intro url depth parent st hst
    rw [crawl]
    simp only []
    cases hw : env.world (_normalize_url url) with
    | none => exact hreq st _ hst
    | some page =>
      simp only []
      split
      · exact hreq st _ hst
      · rename_i hvis
        cases page.main with
        | none => exact hreq st _ hst
        | some hrefs =>
          simp only []
          split
          · apply foldl_preserve P _ (fun s a hs => ih a _ _ s hs)
            exact hwrite _ _ _ _ (hreq st _ hst) hvis
          · exact hwrite _ _ _ _ (hreq st _ hst) hvis

theorem crawl_requests_mono (env : Env) (gas : Nat) (url : List Char) (depth : Nat)
    (parent : Option (List Char)) (st : CrawlState) :
    ∃ t, (crawl env gas url depth parent st).requests = st.requests ++ t := by
  apply crawl_preserve env (fun s => ∃ t, s.requests = st.requests ++ t)
  · rintro s r ⟨t, ht⟩
    exact ⟨t ++ [r], by simp [ht]⟩
  · rintro s folder fpath fin ⟨t, ht⟩ _
    exact ⟨t, ht⟩
  · exact ⟨[], by simp⟩

theorem crawl_docs_mono (env : Env) (gas : Nat) (url : List Char) (depth : Nat)
    (parent : Option (List Char)) (st : CrawlState) :
    ∃ t, (crawl env gas url depth parent st).docs = st.docs ++ t := by
  apply crawl_preserve env (fun s => ∃ t, s.docs = st.docs ++ t)
  · rintro s r ⟨t, ht⟩
    exact ⟨t, ht⟩
  · rintro s folder fpath fin ⟨t, ht⟩ _
    exact ⟨t ++ [{ path := fpath, src := fin }], by simp [ht]⟩
  · exact ⟨[], by simp⟩

theorem crawl_visited_mono (env : Env) (gas : Nat) (url : List Char) (depth : Nat)
    (parent : Option (List Char)) (st : CrawlState) :
    ∀ v ∈ st.visited, v ∈ (crawl env gas url depth parent st).visited := by
  have := crawl_preserve env (fun s => ∀ v ∈ st.visited, v ∈ s.visited)
    (fun s r hs => hs)
    (fun s folder fpath fin hs _ => fun v hv => List.mem_cons_of_mem _ (hs v hv))
    gas url depth parent st (fun v hv => hv)
  exact this

/-- The visited-set invariant of one crawl run: the persisted documents
carry pairwise distinct canonical source URLs, and every persisted source
URL is a member of the visited set. -/
def WritesInv (st : CrawlState) : Prop :=
  (st.docs.map SavedDoc.src).Nodup ∧ ∀ d ∈ st.docs, d.src ∈ st.visited

theorem crawl_writes_inv (env : Env) (gas : Nat) (url : List Char) (depth : Nat)
    (parent : Option (List Char)) (st : CrawlState) (h : WritesInv st) :
    WritesInv (crawl env gas url depth parent st) := by
  apply crawl_preserve env WritesInv ?_ ?_ gas url depth parent st h
  · rintro s r ⟨h1, h2⟩
    exact ⟨h1, h2⟩
  · rintro s folder fpath fin ⟨h1, h2⟩ hvis
    constructor
    · show ((s.docs ++ [({ path := fpath, src := fin } : SavedDoc)]).map SavedDoc.src).Nodup
      rw [List.map_append]
      rw [List.nodup_append]
      refine ⟨h1, by simp, ?_⟩
      intro x hx
      rw [List.mem_map] at hx
      obtain ⟨d, hd, rfl⟩ := hx
      simp only [List.map_cons, List.map_nil, List.mem_singleton]
      intro hxf
      exact hvis (hxf ▸ h2 d hd)
    · intro d hd
      rcases List.mem_append.mp hd with hd | hd
      · exact List.mem_cons_of_mem _ (h2 d hd)
      · rw [List.mem_singleton] at hd
        subst hd
        exact List.mem_cons_self _ _

theorem crawl_visited_docs_count (env : Env) (u : List Char) (gas : Nat)
    (url : List Char) (depth : Nat) (parent : Option (List Char)) (st : CrawlState)
    (hu : u ∈ st.visited) :
    (crawl env gas url depth parent st).docs.countP (fun d => decide (d.src = u))
      = st.docs.countP (fun d => decide (d.src = u))
    ∧ u ∈ (crawl env gas url depth parent st).visited := by
  have := crawl_preserve env
    (fun s => u ∈ s.visited ∧
      s.docs.countP (fun d => decide (d.src = u))
        = st.docs.countP (fun d => decide (d.src = u)))
    ?_ ?_ gas url depth parent st ⟨hu, rfl⟩
  · exact ⟨this.2, this.1⟩
  · rintro s r ⟨h1, h2⟩
    exact ⟨h1, h2⟩
  · rintro s folder fpath fin ⟨h1, h2⟩ hvis
    refine ⟨List.mem_cons_of_mem _ h1, ?_⟩
    show (s.docs ++ [({ path := fpath, src := fin } : SavedDoc)]).countP (fun d => decide (d.src = u)) = _
    rw [List.countP_append]
    have : ([{ path := fpath, src := fin }] : List SavedDoc).countP
        (fun d => decide (d.src = u)) = 0 := by
      simp only [List.countP_cons, List.countP_nil]
      have : fin ≠ u := fun hc => hvis (hc ▸ h1)
      simp [this]
    rw [this, h2]
    omega

theorem foldl_requests_mono (env : Env) (g : Nat) (depth : Nat)
    (parent : Option (List Char)) (ls : List (List Char)) (s : CrawlState) :
    ∃ t, (ls.foldl (fun s l => crawl env g l depth parent s) s).requests
      = s.requests ++ t := by
  apply foldl_preserve (fun x => ∃ t, x.requests = s.requests ++ t)
  · rintro x a ⟨t, ht⟩
    obtain ⟨t2, ht2⟩ := crawl_requests_mono env g a depth parent x
    exact ⟨t ++ t2, by rw [ht2, ht, List.append_assoc]⟩
  · exact ⟨[], by simp⟩

theorem crawl_depth_bound (env : Env) :
    ∀ (gas : Nat) (url : List Char) (depth : Nat) (parent : Option (List Char))
      (st : CrawlState),
      depth ≤ env.max_depth →
      (∀ r ∈ st.requests, r.depth ≤ env.max_depth) →
      ∀ r ∈ (crawl env gas url depth parent st).requests, r.depth ≤ env.max_depth := by
  intro gas
  induction gas with
  | zero =>
    intro url depth parent st hd hst
    have hst1 : ∀ r ∈ (st.requests ++
        [({ url := _normalize_url url, timeout := 60, redirects := true,
            depth := depth, parent := parent } : Request)]), r.depth ≤ env.max_depth := by
      intro r hr
      rcases List.mem_append.mp hr with hr | hr
      · exact hst r hr
      · rw [List.mem_singleton] at hr
        subst hr
        exact hd
    rw [crawl]
    simp only []
    cases hw : env.world (_normalize_url url) with
    | none => exact hst1
    | some page =>
      simp only []
      split
      · exact hst1
      · cases page.main with
        | none => exact hst1
        | some hrefs =>
          simp only []
          split
          · exact hst1
          · exact hst1
  | succ g ih =>
    intro url depth parent st hd hst
    have hst1 : ∀ r ∈ (st.requests ++
        [({ url := _normalize_url url, timeout := 60, redirects := true,
            depth := depth, parent := parent } : Request)]), r.depth ≤ env.max_depth := by
      intro r hr
      rcases List.mem_append.mp hr with hr | hr
      · exact hst r hr
      · rw [List.mem_singleton] at hr
        subst hr
        exact hd
    rw [crawl]
    simp only []
    cases hw : env.world (_normalize_url url) with
    | none => exact hst1
    | some page =>
      simp only []
      split
      · exact hst1
      · cases page.main with
        | none => exact hst1
        | some hrefs =>
          simp only []
          split
          · rename_i hlt
            apply foldl_preserve
              (fun s => ∀ r ∈ s.requests, r.depth ≤ env.max_depth)
            · intro s a hs
              exact ih a (depth + 1) _ s (by omega) hs
            · exact hst1
          · exact hst1

theorem crawl_requests_shape (env : Env) (gas : Nat) (url : List Char) (depth : Nat)
    (parent : Option (List Char)) (st : CrawlState) :
    ∃ t, (crawl env gas url depth parent st).requests =
      st.requests ++ (⟨_normalize_url url, 60, true, depth, parent⟩ : Request) :: t := by
  cases gas with
  | zero =>
    rw [crawl]
    simp only []
    cases hw : env.world (_normalize_url url) with
    | none => exact ⟨[], by simp⟩
    | some page =>
      simp only []
      split
      · exact ⟨[], by simp⟩
      · cases page.main with
        | none => exact ⟨[], by simp⟩
        | some hrefs =>
          simp only []
          split
          · exact ⟨[], by simp⟩
          · exact ⟨[], by simp⟩
  | succ g =>
    rw [crawl]
    simp only []
    cases hw : env.world (_normalize_url url) with
    | none => exact ⟨[], by simp⟩
    | some page =>
      simp only []
      split
      · exact ⟨[], by simp⟩
      · cases page.main with
        | none => exact ⟨[], by simp⟩
        | some hrefs =>
          simp only []
          split
          · obtain ⟨t, ht⟩ := foldl_requests_mono env g (depth + 1)
              (some ((env.md5hex (_normalize_url page.url)).take 8))
              (extract_links env.join hrefs (_normalize_url page.url))
              { st with
                  requests := st.requests ++
                    [{ url := _normalize_url url, timeout := 60, redirects := true,
                       depth := depth, parent := parent }],
                  dirs := st.dirs ++
                    [(build_path env.md5hex env.base_folder parent
                        (_normalize_url page.url)).1,
                     ospDirname (build_path env.md5hex env.base_folder parent
                        (_normalize_url page.url)).2],
                  docs := st.docs ++
                    [{ path := (build_path env.md5hex env.base_folder parent
                          (_normalize_url page.url)).2,
                       src := _normalize_url page.url }],
                  visited := _normalize_url page.url :: st.visited }
            exact ⟨t, by rw [ht]; simp⟩
          · exact ⟨[], by simp⟩

theorem crawl_fail (env : Env) (gas : Nat) (url : List Char) (depth : Nat)
    (parent : Option (List Char)) (st : CrawlState)
    (h : env.world (_normalize_url url) = none) :
    crawl env gas url depth parent st =
      { st with requests := st.requests ++
          [{ url := _normalize_url url, timeout := 60, redirects := true,
             depth := depth, parent := parent }] } := by
  rw [crawl]
  simp only [h]

/-! ### Path builder bounds -/

theorem ospJoin_length (a b : List Char) :
    (ospJoin a b).length ≤ a.length + b.length + 1 := by
  unfold ospJoin
  split
  · omega
  · split
    · rw [List.length_append]
      omega
    · rw [List.length_append, List.length_cons]
      omega

theorem build_path_fst (md5hex : List Char → List Char) (base : List Char)
    (parent : Option (List Char)) (url : List Char) :
    (build_path md5hex base parent url).1 =
      ospJoin (match parent with | none => base | some p => ospJoin base p)
        ((md5hex url).take 8) := by
  simp only [build_path]
  split
  · rfl
  · rfl

theorem build_path_snd (md5hex : List Char → List Char) (base : List Char)
    (parent : Option (List Char)) (url : List Char) :
    (build_path md5hex base parent url).2 =
      if 240 < (ospJoin (build_path md5hex base parent url).1
          (_filename_from_url url)).length then
        ospJoin (build_path md5hex base parent url).1
          ((md5hex (ospJoin (build_path md5hex base parent url).1
              (_filename_from_url url))).take 10 ++ (".md").toList)
      else ospJoin (build_path md5hex base parent url).1 (_filename_from_url url) := by
  rw [build_path_fst]
  simp only [build_path]
  split
  · simp only []
  · simp only []

theorem build_path_le (md5hex : List Char → List Char) (base : List Char)
    (parent : Option (List Char)) (url : List Char)
    (h : (build_path md5hex base parent url).1.length + 15 ≤ 240) :
    (build_path md5hex base parent url).2.length ≤ 240 := by
  rw [build_path_snd]
  split
  · rename_i hc
    have h1 : ((md5hex (ospJoin (build_path md5hex base parent url).1
        (_filename_from_url url))).take 10 ++ (".md").toList).length ≤ 13 := by
      rw [List.length_append, List.length_take]
      have : ((".md").toList).length = 3 := by decide
      omega
    have h2 := ospJoin_length (build_path md5hex base parent url).1
      ((md5hex (ospJoin (build_path md5hex base parent url).1
        (_filename_from_url url))).take 10 ++ (".md").toList)
    omega
  · rename_i hc
    omega

/-! ### Claim theorems -/

/-- Test fixture: a transport on which every fetch fails. -/
def noWorld : List Char → Option Page := fun _ => none

/-- Test fixture: an environment whose every fetch fails. -/
def failEnv : Env :=
  { base_folder := ("out").toList, max_depth := 1, world := noWorld,
    join := testJoin, md5hex := constHash32 }

/-- Test fixture: the state of a run that has already visited http://h/a. -/
def visitedA : CrawlState :=
  { visited := [("http://h/a").toList], docs := [], requests := [], dirs := [] }

/-- C1: the recursive step is taken only under the guard depth < max_depth,
every child task running at depth + 1, so every HTTP request of a crawl
started at depth ≤ max_depth carries a depth ≤ max_depth; and concretely, on
the three-level site crawled with max_depth = 1 the run issues exactly the
root request (depth 0, no parent) and the child request (depth 1, parent =
the digest8 token of the root), and the grandchild http://h/b is never
fetched. -/
theorem C1_depth_bound :
    (∀ (env : Env) (gas : Nat) (url : List Char) (depth : Nat)
        (parent : Option (List Char)) (st : CrawlState),
      depth ≤ env.max_depth →
      (∀ r ∈ st.requests, r.depth ≤ env.max_depth) →
      ∀ r ∈ (crawl env gas url depth parent st).requests, r.depth ≤ env.max_depth) ∧
    (fetch_and_save testEnv (("http://h").toList) 0 none initState).requests.map
        (fun r => (r.url, r.depth, r.parent)) =
      [((("http://h").toList), 0, none),
       ((("http://h/a").toList), 1, some (("00000000").toList))] :=
  ⟨crawl_depth_bound, by decide⟩

theorem C1_depth_bound_witness :
    (fetch_and_save testEnv (("http://h").toList) 0 none initState).requests.all
      (fun r => decide (r.depth ≤ testEnv.max_depth)) = true := by
  rw [List.all_eq_true]
  intro r hr
  exact decide_eq_true (C1_depth_bound.1 testEnv (testEnv.max_depth + 1 - 0)
    (("http://h").toList) 0 none initState (Nat.zero_le _)
    (by intro x hx; simp [initState] at hx) r hr)

/-- C2: within one run at most one document is persisted per canonical URL:
assuming the documents so far have pairwise distinct source URLs all of
which are recorded as visited, the same holds after any crawl step; the
document log is append-only (a persisted file is never updated or deleted
by the process) and the visited set only grows. -/
theorem C2_unique_docs :
    ∀ (env : Env) (gas : Nat) (url : List Char) (depth : Nat)
      (parent : Option (List Char)) (st : CrawlState),
      WritesInv st →
      WritesInv (crawl env gas url depth parent st) ∧
      (∃ t, (crawl env gas url depth parent st).docs = st.docs ++ t) ∧
      (∀ v ∈ st.visited, v ∈ (crawl env gas url depth parent st).visited) :=
  fun env gas url depth parent st h =>
    ⟨crawl_writes_inv env gas url depth parent st h,
     crawl_docs_mono env gas url depth parent st,
     crawl_visited_mono env gas url depth parent st⟩

theorem C2_unique_docs_witness :
    WritesInv (fetch_and_save testEnv (("http://h").toList) 0 none initState) :=
  (C2_unique_docs testEnv (testEnv.max_depth + 1 - 0) (("http://h").toList) 0 none
    initState ⟨by simp [initState], by simp [initState]⟩).1

set_option maxRecDepth 4000 in
/-- C3 as stated is false: the claimed unconditional 240-character bound
fails; with a 250-character base folder even the digest fallback path
exceeds 240 characters. -/
theorem C3_length_cex :
    ¬ (build_path constHash32 (List.replicate 250 'a') none
        (("http://h").toList)).2.length ≤ 240 := by decide

/-- C3 amended: the path builder keeps the path within 240 characters
whenever the folder part (base[/parent]/digest8) leaves room for the
15-character fallback name, i.e. has at most 225 characters; and whenever
the normally derived path exceeds 240 characters the filename is replaced
by the first 10 hex characters of the MD5 of that full path plus ".md",
keeping the same folder (determinism holds because build_path is a pure
function of its inputs). -/
theorem C3_path_builder (md5hex : List Char → List Char) (base : List Char)
    (parent : Option (List Char)) (url : List Char) :
    ((build_path md5hex base parent url).1.length + 15 ≤ 240 →
      (build_path md5hex base parent url).2.length ≤ 240) ∧
    (240 < (ospJoin (build_path md5hex base parent url).1
        (_filename_from_url url)).length →
      (build_path md5hex base parent url).2 =
        ospJoin (build_path md5hex base parent url).1
          ((md5hex (ospJoin (build_path md5hex base parent url).1
              (_filename_from_url url))).take 10 ++ (".md").toList)) := by
  constructor
  · exact build_path_le md5hex base parent url
  · intro h
    rw [build_path_snd, if_pos h]

theorem C3_path_builder_witness :
    (build_path constHash32 (("output").toList) none (("http://h").toList)).2.length ≤ 240 :=
  (C3_path_builder constHash32 (("output").toList) none (("http://h").toList)).1 (by decide)

/-- The normalizer as worded by the claim for C4: scheme, host and path with
the query string and fragment discarded and a SINGLE trailing slash
stripped from the path. -/
def normalize_url_single_spec (url : List Char) : List Char :=
  let p := urlparse url
  p.scheme ++ [':', '/', '/'] ++ p.netloc ++
    (if p.path.getLast? = some '/' then p.path.dropLast else p.path)

/-- C4 as stated is false on two counts: on http://h/p// the code strips
BOTH trailing slashes where stripping a single one would leave
http://h/p/ ; and on file:/// (empty parsed host) the output is file:,
which is not of the form scheme://host/path. -/
theorem C4_single_slash_cex :
    _normalize_url (("http://h/p//").toList)
        ≠ normalize_url_single_spec (("http://h/p//").toList) ∧
    _normalize_url (("file:///").toList) ≠
      (urlparse (("file:///").toList)).scheme ++ [':', '/', '/'] ++
        (urlparse (("file:///").toList)).netloc ++
        rstripSlash (urlparse (("file:///").toList)).path := by
  constructor <;> decide

/-- C4 amended: for every URL with a nonempty parsed host, the normalizer
returns exactly scheme://host followed by the path with ALL trailing
slashes stripped; the output never ends in '/' and contains neither '?'
nor '#' (query and fragment are discarded). -/
theorem C4_normalize_shape (u : List Char) (h : (urlparse u).netloc ≠ []) :
    _normalize_url u = (urlparse u).scheme ++ [':', '/', '/'] ++
      (urlparse u).netloc ++ rstripSlash (urlparse u).path ∧
    (_normalize_url u).getLast? ≠ some '/' ∧
    (∀ c ∈ _normalize_url u, c ≠ '?' ∧ c ≠ '#') := by
  refine ⟨?_, normalize_no_trailing u, normalize_no_qf u⟩
  rw [normalize_netloc_ne u h]
  simp

theorem C4_normalize_shape_witness :
    _normalize_url (("http://h/p//?x=1#f").toList) = ("http://h/p").toList := by
  have := (C4_normalize_shape (("http://h/p//?x=1#f").toList) (by decide)).1
  rw [this]
  decide

/-- C5: the link extractor satisfies its contract: the stripped hrefs that
are empty or start with '#' are skipped; each remaining href is resolved
against the final page URL and canonicalized; candidates whose host
differs from the pages host or that equal the pages own canonical URL are
discarded; the output keeps document order and is not deduplicated (the
filterMap form of the spec); moreover every emitted link has the pages
host, differs from the pages URL, and is the canonicalization of the
resolution of some href of the region. -/
theorem C5_extract_links_contract (join : List Char → List Char → List Char)
    (hrefs : List (List Char)) (final_url : List Char) :
    extract_links join hrefs final_url = extract_links_spec join hrefs final_url ∧
    ∀ l ∈ extract_links join hrefs final_url,
      (urlparse l).netloc = (urlparse final_url).netloc ∧ l ≠ final_url ∧
      ∃ h0 ∈ hrefs, l = _normalize_url (join final_url (pyStrip h0)) := by
  refine ⟨extract_links_eq_spec join hrefs final_url, ?_⟩
  intro l hl
  rw [extract_links_eq_spec] at hl
  unfold extract_links_spec at hl
  rw [List.mem_filterMap] at hl
  obtain ⟨href, hhref, heq⟩ := hl
  rw [List.mem_map] at hhref
  obtain ⟨h0, hh0, rfl⟩ := hhref
  simp only [] at heq
  by_cases h1 : (decide (pyStrip h0 = []) || decide ((pyStrip h0).head? = some '#')) = true
  · rw [if_pos h1] at heq
    simp at heq
  · rw [if_neg h1] at heq
    by_cases h2 : (urlparse (_normalize_url (join final_url (pyStrip h0)))).netloc
        = (urlparse final_url).netloc ∧
        _normalize_url (join final_url (pyStrip h0)) ≠ final_url
    · rw [if_pos h2] at heq
      rw [Option.some.injEq] at heq
      subst heq
      exact ⟨h2.1, h2.2, h0, hh0, rfl⟩
    · rw [if_neg h2] at heq
      simp at heq

/-- C6 as stated is false: the HTTP request of a task is issued to the
canonicalized URL, not to the raw URL — for the raw URL http://h/?x=1 the
only request issued targets http://h. -/
theorem C6_raw_fetch_cex :
    (fetch_and_save failEnv (("http://h/?x=1").toList) 0 none initState).requests.map
        Request.url = [("http://h").toList] ∧
    ("http://h").toList ≠ ("http://h/?x=1").toList := by
  constructor <;> decide

/-- C6 amended: for every task the raw URL is canonicalized once, and the
single HTTP request the task issues before anything else targets that
canonicalized URL, with allow_redirects = true and the fixed 60-second
timeout (these are the request fields recorded by the model). -/
theorem C6_fetch_normalized (env : Env) (gas : Nat) (url : List Char) (depth : Nat)
    (parent : Option (List Char)) (st : CrawlState) :
    ∃ t, (crawl env gas url depth parent st).requests =
      st.requests ++ (⟨_normalize_url url, 60, true, depth, parent⟩ : Request) :: t :=
  crawl_requests_shape env gas url depth parent st

/-- C7 as stated is false: a same-domain link whose canonical URL is
already in VisitedSet IS re-fetched — with http://h/a already visited,
crawling the root (which links to it) still issues an HTTP request for
http://h/a; only the persisting is skipped (no document is written for
it). -/
theorem C7_refetch_cex :
    ("http://h/a").toList ∈
      (fetch_and_save testEnv (("http://h").toList) 0 none visitedA).requests.map
        Request.url ∧
    ("http://h/a").toList ∈ visitedA.visited ∧
    (fetch_and_save testEnv (("http://h").toList) 0 none visitedA).docs.countP
      (fun d => decide (d.src = ("http://h/a").toList)) = 0 := by
  refine ⟨by decide, by decide, by decide⟩

/-- C7 amended: a link already in VisitedSet is still fetched (the request
precedes the visited-set check), but the check prevents any duplicate
persisted document: for every URL in the visited set, the number of
persisted documents bearing it as source is unchanged by the crawl. -/
theorem C7_no_duplicate_doc (env : Env) (u : List Char) (gas : Nat) (url : List Char)
    (depth : Nat) (parent : Option (List Char)) (st : CrawlState)
    (hu : u ∈ st.visited) :
    (crawl env gas url depth parent st).docs.countP (fun d => decide (d.src = u))
      = st.docs.countP (fun d => decide (d.src = u)) :=
  (crawl_visited_docs_count env u gas url depth parent st hu).1

theorem C7_no_duplicate_doc_witness :
    (fetch_and_save testEnv (("http://h").toList) 0 none visitedA).docs.countP
      (fun d => decide (d.src = ("http://h/a").toList))
      = visitedA.docs.countP (fun d => decide (d.src = ("http://h/a").toList)) :=
  C7_no_duplicate_doc testEnv (("http://h/a").toList) (testEnv.max_depth + 1 - 0)
    (("http://h").toList) 0 none visitedA (by decide)

/-- C8: when the fetch of a task fails (the transport returns none for the
canonicalized URL), the task terminates after logging exactly one request:
no document is written, the visited set and directory log are unchanged,
and the crawl continues with the remaining sibling links. -/
theorem C8_failure_local (env : Env) (gas : Nat) (url : List Char) (depth : Nat)
    (parent : Option (List Char)) (st : CrawlState) (ls : List (List Char))
    (h : env.world (_normalize_url url) = none) :
    crawl env gas url depth parent st =
      { st with requests := st.requests ++
          [⟨_normalize_url url, 60, true, depth, parent⟩] } ∧
    List.foldl (fun s l => crawl env gas l depth parent s) st (url :: ls) =
      List.foldl (fun s l => crawl env gas l depth parent s)
        { st with requests := st.requests ++
            [⟨_normalize_url url, 60, true, depth, parent⟩] } ls := by
  have h1 := crawl_fail env gas url depth parent st h
  exact ⟨h1, by rw [List.foldl_cons, h1]⟩

theorem C8_failure_local_witness :
    crawl failEnv 2 (("http://h").toList) 0 none initState =
      { initState with requests := initState.requests ++
          [⟨_normalize_url (("http://h").toList), 60, true, 0, none⟩] } :=
  (C8_failure_local failEnv 2 (("http://h").toList) 0 none initState [] rfl).1

/-- C9 as stated is false: the normalizer is not idempotent on every
absolute URL, because urlparse only splits the params component (the ';'
suffix of the LAST path segment) when one exists there.  For
http://h/p;x/ the trailing '/' shields the ';' from the params split, so
one normalization yields http://h/p;x — but normalizing that again splits
';x' off as params and yields http://h/p. -/
theorem C9_idempotent_cex :
    _normalize_url (_normalize_url (("http://h/p;x/").toList))
      ≠ _normalize_url (("http://h/p;x/").toList) ∧
    _normalize_url (("http://h/p;x/").toList) = ("http://h/p;x").toList ∧
    _normalize_url (_normalize_url (("http://h/p;x/").toList)) = ("http://h/p").toList := by
  refine ⟨by decide, by decide, by decide⟩

/-- C9 amended: the URL normalizer is idempotent on every absolute URL
(nonempty parsed scheme) whose parsed path contains no ';' (so that
reparsing the canonical output cannot trigger the params split of
urlparse); the concrete chain
normalize("http://h/p/?x=1#f") = normalize("http://h/p/") = "http://h/p"
holds. -/
theorem C9_normalize_idempotent :
    (∀ u : List Char, (urlparse u).scheme ≠ [] →
      (∀ c ∈ (urlparse u).path, c ≠ ';') →
      _normalize_url (_normalize_url u) = _normalize_url u) ∧
    _normalize_url (("http://h/p/?x=1#f").toList)
      = _normalize_url (("http://h/p/").toList) ∧
    _normalize_url (("http://h/p/").toList) = ("http://h/p").toList :=
  ⟨normurl_idem, by decide, by decide⟩

theorem C9_normalize_idempotent_witness :
    _normalize_url (_normalize_url (("http://h/p/?x=1#f").toList)) =
      _normalize_url (("http://h/p/?x=1#f").toList) :=
  C9_normalize_idempotent.1 (("http://h/p/?x=1#f").toList) (by decide) (by decide)

/-- C10 as stated is false for URLs with an empty parsed host: file:/// has
an all-slash parsed path, but the normalizer returns file: rather than
scheme://host, because rstrip("/") also eats the two slashes of the ://
separator when nothing follows them. -/
theorem C10_empty_host_cex :
    (∀ c ∈ (urlparse (("file:///").toList)).path, c = '/') ∧
    _normalize_url (("file:///").toList) ≠
      (urlparse (("file:///").toList)).scheme ++ [':', '/', '/'] ++
        (urlparse (("file:///").toList)).netloc := by
  constructor <;> decide

/-- C10 amended: for every URL with a NONEMPTY parsed host whose parsed
path is empty or consists only of '/' characters, the normalizer returns
exactly scheme://host with no path component; and in general it removes
every trailing slash: no output of the normalizer ever ends in '/'. -/
theorem C10_all_slash_path (u : List Char) :
    ((urlparse u).netloc ≠ [] → (∀ c ∈ (urlparse u).path, c = '/') →
      _normalize_url u = (urlparse u).scheme ++ [':', '/', '/'] ++
        (urlparse u).netloc) ∧
    (_normalize_url u).getLast? ≠ some '/' := by
  refine ⟨?_, normalize_no_trailing u⟩
  intro hn hp
  rw [normalize_netloc_ne u hn]
  rw [(rstripSlash_eq_nil_iff _).mpr hp]
  simp

theorem C10_all_slash_path_witness :
    _normalize_url (("http://host///").toList) = ("http://host").toList := by
  have := (C10_all_slash_path (("http://host///").toList)).1 (by decide) (by decide)
  rw [this]
  decide

theorem C5_extract_links_contract_witness :
    extract_links testJoin [("/a").toList] (("http://h").toList)
      = extract_links_spec testJoin [("/a").toList] (("http://h").toList) :=
  (C5_extract_links_contract testJoin [("/a").toList] (("http://h").toList)).1

theorem C6_fetch_normalized_witness :
    (crawl failEnv 1 (("http://h/?x=1").toList) 0 none initState).requests.head? =
      some ⟨("http://h").toList, 60, true, 0, none⟩ := by
  obtain ⟨t, ht⟩ := C6_fetch_normalized failEnv 1 (("http://h/?x=1").toList) 0 none initState
  rw [ht]
  simp
  decide
